import Mathlib

/-!
Verification of the concurrency/resilience primitives of this repository:
semaphore, sliding-window rate limiter (naive and ring-buffer variants),
LRU cache with TTL, circuit breaker, and throttle.  Each TypeScript
function is embedded as a Lean definition over an explicit state type;
the injected clock becomes an explicit time argument.
-/

/-! ## Semaphore (`createSemaphore`)

State: `activeCount` (a JS number, modelled as `Int` since the code can
drive it negative) and the waiter queue, modelled by its length (FIFO
identity of waiters is irrelevant to the claims below).  `release` is the
single shared closure returned by every `acquire`; invoking it decrements
`activeCount` and, if a waiter is queued, pops it and re-increments. -/

structure Sem where
  maxConcurrency : Int
  activeCount : Int
  queue : Nat
  deriving Repr, DecidableEq

/-- `createSemaphore(concurrency)`: limit is `Math.max(1, Math.floor(concurrency))`
(`Math.floor` is the identity on our integer model). -/
def createSemaphore (concurrency : Int) : Sem :=
  { maxConcurrency := max 1 concurrency, activeCount := 0, queue := 0 }

/-- The `release` closure: `activeCount -= 1`; then `queue.shift()`, and when a
waiter was dequeued, `activeCount += 1` and the waiter resolves. -/
def semRelease (s : Sem) : Sem :=
  if s.queue > 0 then
    { s with activeCount := s.activeCount - 1 + 1, queue := s.queue - 1 }
  else { s with activeCount := s.activeCount - 1 }

/-- `acquire()`: fast path increments `activeCount` when below the limit and
resolves immediately; otherwise the caller is appended to the waiter queue. -/
def semAcquire (s : Sem) : Sem :=
  if s.activeCount < s.maxConcurrency then { s with activeCount := s.activeCount + 1 }
  else { s with queue := s.queue + 1 }

/-- An externally observable semaphore step: an `acquire()` call or one
invocation of a release callback (possibly a double release). -/
inductive SemEvent where
  | acquire
  | release
  deriving Repr, DecidableEq

def semStep (s : Sem) : SemEvent → Sem
  | .acquire => semAcquire s
  | .release => semRelease s

def semFold (s : Sem) : List SemEvent → Sem
  | [] => s
  | e :: es => semFold (semStep s e) es

/-- A trace is release-disciplined from `s` when every release callback fires
while at least one permit is actually held — i.e. no double release. -/
def semLegal (s : Sem) : List SemEvent → Bool
  | [] => true
  | .acquire :: es => semLegal (semAcquire s) es
  | .release :: es => decide (0 < s.activeCount) && semLegal (semRelease s) es

/-- `run(fn)`: `await acquire()`, run `fn`, release in `finally`.  `fn`'s
outcome is the `Except` value; the original result or failure is returned
unchanged after the release. -/
def semRun {ε α : Type} (s : Sem) (outcome : Except ε α) : Except ε α × Sem :=
  let s1 := semAcquire s
  (outcome, semRelease s1)

def semActive (s : Sem) : Int := s.activeCount
def semWaiting (s : Sem) : Nat := s.queue
def semLimit (s : Sem) : Int := s.maxConcurrency

theorem semFold_active_le (events : List SemEvent) :
    ∀ s : Sem, s.activeCount ≤ s.maxConcurrency →
      (semFold s events).activeCount ≤ (semFold s events).maxConcurrency := by
  induction events with
  | nil => intro s h; simpa [semFold] using h
  | cons e es ih =>
    intro s h
    cases e with
    | acquire =>
      simp only [semFold, semStep]
      refine ih _ ?_
      unfold semAcquire; split <;> simp <;> omega
    | release =>
      simp only [semFold, semStep]
      refine ih _ ?_
      unfold semRelease; split <;> simp <;> omega

theorem semFold_legal_inv (events : List SemEvent) :
    ∀ s : Sem, semLegal s events = true →
      0 ≤ s.activeCount → s.activeCount ≤ s.maxConcurrency →
      0 ≤ (semFold s events).activeCount ∧
        (semFold s events).activeCount ≤ (semFold s events).maxConcurrency := by
  induction events with
  | nil => intro s _ h0 h1; exact ⟨h0, by simpa [semFold] using h1⟩
  | cons e es ih =>
    intro s hleg h0 h1
    cases e with
    | acquire =>
      simp only [semFold, semStep]
      refine ih (semAcquire s) (by simpa [semLegal] using hleg) ?_ ?_
      · unfold semAcquire; split <;> simp <;> omega
      · unfold semAcquire; split <;> simp <;> omega
    | release =>
      simp only [semLegal, Bool.and_eq_true, decide_eq_true_eq] at hleg
      simp only [semFold, semStep]
      obtain ⟨hpos, hleg2⟩ := hleg
      refine ih (semRelease s) hleg2 ?_ ?_
      · unfold semRelease; split <;> simp <;> omega
      · unfold semRelease; split <;> simp <;> omega

/-- C1 fails as stated: with `concurrency = 1`, the trace
acquire–release–release (a double release of the same callback) drives
`active()` to `-1`, violating `0 ≤ active()`. -/
theorem c1_counterexample :
    semActive (semFold (createSemaphore 1) [.acquire, .release, .release]) = -1 ∧
      ¬ (0 ≤ semActive (semFold (createSemaphore 1) [.acquire, .release, .release]) ∧
          semActive (semFold (createSemaphore 1) [.acquire, .release, .release]) ≤
            semLimit (semFold (createSemaphore 1) [.acquire, .release, .release])) := by
  decide

/-- C1 (amended): for every requested concurrency and every event sequence,
`active() ≤ limit()` always holds; and when every release callback fires
while a permit is held (no double release), `0 ≤ active() ≤ limit()` holds
after every step. -/
theorem c1_semaphore_invariant (concurrency : Int) (events : List SemEvent) :
    semActive (semFold (createSemaphore concurrency) events) ≤
        semLimit (semFold (createSemaphore concurrency) events) ∧
      (semLegal (createSemaphore concurrency) events = true →
        0 ≤ semActive (semFold (createSemaphore concurrency) events) ∧
          semActive (semFold (createSemaphore concurrency) events) ≤
            semLimit (semFold (createSemaphore concurrency) events)) := by
  have h01 : (createSemaphore concurrency).activeCount ≤
      (createSemaphore concurrency).maxConcurrency := by
    simp only [createSemaphore]
    exact le_max_iff.mpr (Or.inl zero_le_one)
  constructor
  · exact semFold_active_le events (createSemaphore concurrency) h01
  · intro hleg
    exact semFold_legal_inv events (createSemaphore concurrency) hleg (le_refl 0) h01

/-- Witness for C1 (amended) at `concurrency = 2` and a legal
acquire–acquire–release–release trace. -/
theorem c1_semaphore_invariant_witness :
    0 ≤ semActive (semFold (createSemaphore 2) [.acquire, .acquire, .release, .release]) ∧
      semActive (semFold (createSemaphore 2) [.acquire, .acquire, .release, .release]) ≤
        semLimit (semFold (createSemaphore 2) [.acquire, .acquire, .release, .release]) :=
  (c1_semaphore_invariant 2 [.acquire, .acquire, .release, .release]).2 (by decide)

/-- C5: when `run(fn)` starts with a free permit (`active() < limit()`) and no
foreign waiter is queued, it acquires, runs `fn`, releases on every exit
path, returns to exactly the initial state (net zero change to `active()`),
and propagates `fn`'s outcome — success value or original failure —
unchanged. -/
theorem c5_run_net_zero {ε α : Type} (s : Sem) (outcome : Except ε α)
    (hfast : s.activeCount < s.maxConcurrency) (hq : s.queue = 0) :
    semRun s outcome = (outcome, s) := by
  obtain ⟨mc, ac, q⟩ := s
  simp only at hfast hq
  subst hq
  unfold semRun semAcquire semRelease
  simp [hfast]

/-- Witness for C5 at a concrete one-permit semaphore and a failing `fn`. -/
theorem c5_run_net_zero_witness :
    semRun (createSemaphore 1) (Except.error "boom" : Except String Nat) =
      (Except.error "boom", createSemaphore 1) :=
  c5_run_net_zero (createSemaphore 1) (Except.error "boom")
    (by simp [createSemaphore]) (by simp [createSemaphore])

/-! ## LRU cache with TTL (`createLruCache`)

The JS `Map` is embedded as an association list in insertion order: `Map.get`
is first-match lookup, `Map.set` replaces in place when the key exists and
appends otherwise, `Map.delete` removes the first binding of the key, and
`map.keys().next()` is the head.  The injected clock `now` becomes an explicit
argument of each operation. -/

structure LruEntry (V : Type) where
  value : V
  expiresAt : Int
  deriving Repr, DecidableEq

structure LruCache (V : Type) where
  entries : List (String × LruEntry V)
  deriving Repr, DecidableEq

def mapGet {V : Type} (k : String) : List (String × LruEntry V) → Option (LruEntry V)
  | [] => none
  | p :: t => if p.1 = k then some p.2 else mapGet k t

def mapSet {V : Type} (k : String) (e : LruEntry V) :
    List (String × LruEntry V) → List (String × LruEntry V)
  | [] => [(k, e)]
  | p :: t => if p.1 = k then (k, e) :: t else p :: mapSet k e t

def mapDelete {V : Type} (k : String) :
    List (String × LruEntry V) → List (String × LruEntry V)
  | [] => []
  | p :: t => if p.1 = k then t else p :: mapDelete k t

/-- `maxSize = Math.max(1, Math.floor(options.maxSize))`. -/
def lruMaxSize (raw : Int) : Nat := (max 1 raw).toNat

/-- `isExpired(entry)`: `entry.expiresAt > 0 && now() >= entry.expiresAt`. -/
def isExpired {V : Type} (now : Int) (e : LruEntry V) : Bool :=
  e.expiresAt > 0 && now ≥ e.expiresAt

/-- `touch(key, entry)`: `map.delete(key); map.set(key, entry)` — moves the
entry to the most-recently-used (back) position. -/
def touch {V : Type} (k : String) (e : LruEntry V)
    (l : List (String × LruEntry V)) : List (String × LruEntry V) :=
  mapSet k e (mapDelete k l)

/-- `evictOldest()`: delete the key yielded by `map.keys().next()` — the head. -/
def evictOldest {V : Type} : List (String × LruEntry V) → List (String × LruEntry V)
  | [] => []
  | _ :: t => t

/-- The `while (map.size > maxSize) evictOldest()` loop in `set`: each
iteration on a non-empty map removes the head (= `evictOldest`). -/
def evictWhile {V : Type} (maxSize : Nat) :
    List (String × LruEntry V) → List (String × LruEntry V)
  | [] => []
  | p :: t => if maxSize < (p :: t).length then evictWhile maxSize t else p :: t

def cacheGet {V : Type} (now : Int) (k : String) (s : LruCache V) :
    Option V × LruCache V :=
  match mapGet k s.entries with
  | none => (none, s)
  | some e =>
    if isExpired now e then (none, ⟨mapDelete k s.entries⟩)
    else (some e.value, ⟨touch k e s.entries⟩)

def cacheSet {V : Type} (maxSize : Nat) (ttlMs : Int) (now : Int)
    (k : String) (v : V) (s : LruCache V) : LruCache V :=
  let l0 := if (mapGet k s.entries).isSome then mapDelete k s.entries else s.entries
  let expiresAt := if ttlMs > 0 then now + ttlMs else 0
  ⟨evictWhile maxSize (mapSet k ⟨v, expiresAt⟩ l0)⟩

def cacheHas {V : Type} (now : Int) (k : String) (s : LruCache V) :
    Bool × LruCache V :=
  match mapGet k s.entries with
  | none => (false, s)
  | some e =>
    if isExpired now e then (false, ⟨mapDelete k s.entries⟩)
    else (true, s)

def cacheDelete {V : Type} (k : String) (s : LruCache V) : Bool × LruCache V :=
  ((mapGet k s.entries).isSome, ⟨mapDelete k s.entries⟩)

def cacheClear {V : Type} (_ : LruCache V) : LruCache V := ⟨[]⟩

def cacheSize {V : Type} (s : LruCache V) : Nat := s.entries.length

def cacheKeys {V : Type} (s : LruCache V) : List String := s.entries.map Prod.fst

def lruInit (V : Type) : LruCache V := ⟨[]⟩

/-- One observable cache operation, carrying the clock value at which it runs. -/
inductive CacheOp (V : Type) where
  | setOp (now : Int) (k : String) (v : V)
  | getOp (now : Int) (k : String)
  | hasOp (now : Int) (k : String)
  | delOp (k : String)
  | clearOp
  deriving Repr

def applyCacheOp {V : Type} (maxSize : Nat) (ttlMs : Int) (s : LruCache V) :
    CacheOp V → LruCache V
  | .setOp now k v => cacheSet maxSize ttlMs now k v s
  | .getOp now k => (cacheGet now k s).2
  | .hasOp now k => (cacheHas now k s).2
  | .delOp k => (cacheDelete k s).2
  | .clearOp => cacheClear s

def cacheFold {V : Type} (maxSize : Nat) (ttlMs : Int) (s : LruCache V) :
    List (CacheOp V) → LruCache V
  | [] => s
  | op :: ops => cacheFold maxSize ttlMs (applyCacheOp maxSize ttlMs s op) ops

theorem mapDelete_sublist {V : Type} (k : String) (l : List (String × LruEntry V)) :
    List.Sublist (mapDelete k l) l := by
  induction l with
  | nil => simp [mapDelete]
  | cons p t ih =>
    unfold mapDelete
    split
    · exact List.sublist_cons_of_sublist p (List.Sublist.refl t)
    · exact List.Sublist.cons₂ p ih

theorem mapDelete_mem_of_ne {V : Type} (k : String) (l : List (String × LruEntry V))
    (p : String × LruEntry V) (hp : p ∈ l) (hne : p.1 ≠ k) :
    p ∈ mapDelete k l := by
  induction l with
  | nil => simp at hp
  | cons q t ih =>
    unfold mapDelete
    rcases List.mem_cons.mp hp with h | h
    · subst h
      simp [hne]
    · split
      · exact h
      · exact List.mem_cons_of_mem q (ih h)

theorem mapDelete_eq_self {V : Type} (k : String) (l : List (String × LruEntry V))
    (h : mapGet k l = none) : mapDelete k l = l := by
  induction l with
  | nil => rfl
  | cons q t ih =>
    unfold mapGet at h
    unfold mapDelete
    by_cases hq : q.1 = k
    · simp [hq] at h
    · simp only [hq, if_false] at h ⊢
      rw [ih h]

theorem mapDelete_length {V : Type} (k : String) (l : List (String × LruEntry V))
    (e : LruEntry V) (h : mapGet k l = some e) :
    (mapDelete k l).length + 1 = l.length := by
  induction l with
  | nil => simp [mapGet] at h
  | cons q t ih =>
    unfold mapGet at h
    unfold mapDelete
    by_cases hq : q.1 = k
    · simp [hq]
    · simp only [hq, if_false] at h ⊢
      simp [ih h]

theorem mapDelete_length_le {V : Type} (k : String) (l : List (String × LruEntry V)) :
    (mapDelete k l).length ≤ l.length :=
  (mapDelete_sublist k l).length_le

theorem mapSet_length_le {V : Type} (k : String) (e : LruEntry V)
    (l : List (String × LruEntry V)) :
    (mapSet k e l).length ≤ l.length + 1 := by
  induction l with
  | nil => simp [mapSet]
  | cons q t ih =>
    unfold mapSet
    split
    · simp
    · simp only [List.length_cons]
      omega

theorem evictWhile_length_le {V : Type} (maxSize : Nat)
    (l : List (String × LruEntry V)) :
    (evictWhile maxSize l).length ≤ maxSize := by
  induction l with
  | nil => simp [evictWhile]
  | cons p t ih =>
    unfold evictWhile
    split
    · exact ih
    · rename_i hnlt
      simp only [List.length_cons] at hnlt ⊢
      omega

theorem cacheSet_size_le {V : Type} (maxSize : Nat) (ttlMs now : Int)
    (k : String) (v : V) (s : LruCache V) :
    cacheSize (cacheSet maxSize ttlMs now k v s) ≤ maxSize := by
  unfold cacheSet cacheSize
  exact evictWhile_length_le maxSize _

theorem applyCacheOp_size_le {V : Type} (maxSize : Nat) (ttlMs : Int)
    (s : LruCache V) (op : CacheOp V) (h : cacheSize s ≤ maxSize) :
    cacheSize (applyCacheOp maxSize ttlMs s op) ≤ maxSize := by
  cases op with
  | setOp now k v => exact cacheSet_size_le maxSize ttlMs now k v s
  | getOp now k =>
    unfold applyCacheOp cacheGet
    cases hg : mapGet k s.entries with
    | none => simpa [cacheSize, hg] using h
    | some e =>
      simp only [hg]
      split
      · exact Nat.le_trans (mapDelete_length_le k s.entries) h
      · unfold cacheSize touch
        simp only
        refine Nat.le_trans (mapSet_length_le k e _) ?_
        have := mapDelete_length k s.entries e hg
        unfold cacheSize at h
        omega
  | hasOp now k =>
    unfold applyCacheOp cacheHas
    cases hg : mapGet k s.entries with
    | none => simpa [cacheSize, hg] using h
    | some e =>
      simp only [hg]
      split
      · exact Nat.le_trans (mapDelete_length_le k s.entries) h
      · simpa [cacheSize] using h
  | delOp k =>
    unfold applyCacheOp cacheDelete cacheSize
    exact Nat.le_trans (mapDelete_length_le k s.entries) h
  | clearOp => simp [applyCacheOp, cacheClear, cacheSize]

/-- C8: for every raw `maxSize` (clamped to ≥ 1 by construction) and every
operation sequence, `size() ≤ maxSize` holds after each operation returns. -/
theorem c8_size_le_maxSize {V : Type} (maxSizeRaw ttlMs : Int)
    (ops : List (CacheOp V)) :
    cacheSize (cacheFold (lruMaxSize maxSizeRaw) ttlMs (lruInit V) ops) ≤
      lruMaxSize maxSizeRaw := by
  suffices h : ∀ s : LruCache V, cacheSize s ≤ lruMaxSize maxSizeRaw →
      cacheSize (cacheFold (lruMaxSize maxSizeRaw) ttlMs s ops) ≤ lruMaxSize maxSizeRaw by
    exact h (lruInit V) (by simp [lruInit, cacheSize])
  induction ops with
  | nil => intro s hs; simpa [cacheFold] using hs
  | cons op rest ih =>
    intro s hs
    exact ih _ (applyCacheOp_size_le _ ttlMs s op hs)

/-- C6 fails as stated: probing an *expired* entry with `has` lazily deletes
it, which changes the key list observable via `keys()`.  Concretely, with
`ttlMs` giving `expiresAt = 6000`, at `now = 6000` the cache holds key `"a"`,
yet after `has("a")` the key list is empty. -/
theorem c6_counterexample :
    cacheKeys ((cacheHas 6000 "a"
        (⟨[("a", ⟨(0 : Nat), 6000⟩)]⟩ : LruCache Nat)).2) ≠
      cacheKeys (⟨[("a", ⟨(0 : Nat), 6000⟩)]⟩ : LruCache Nat) := by
  decide

/-- C6 (amended): `has(key)` returns true iff the key is present and not
expired (the same expiry test as `get`: `expiresAt > 0 ∧ now ≥ expiresAt`);
it never promotes recency — the resulting entry list is a sublist of the
original (entries are never reordered), every entry under a different key is
retained, and the cache is completely unchanged unless the probed entry is
expired (in which case exactly that entry is lazily removed). -/
theorem c6_has_no_promotion {V : Type} (now : Int) (k : String) (s : LruCache V) :
    ((cacheHas now k s).1 = true ↔
        ∃ e, mapGet k s.entries = some e ∧ isExpired now e = false) ∧
      List.Sublist (cacheHas now k s).2.entries s.entries ∧
      (∀ p ∈ s.entries, p.1 ≠ k → p ∈ (cacheHas now k s).2.entries) ∧
      ((∀ e, mapGet k s.entries = some e → isExpired now e = false) →
        (cacheHas now k s).2 = s) := by
  unfold cacheHas
  cases hg : mapGet k s.entries with
  | none =>
    simp only [hg]
    refine ⟨?_, ?_, ?_, ?_⟩
    · simp
    · exact List.Sublist.refl _
    · exact fun p hp _ => hp
    · intro _
      trivial
  | some e =>
    simp only [hg]
    by_cases hx : isExpired now e = true
    · simp only [hx, if_true]
      refine ⟨?_, mapDelete_sublist k s.entries,
        fun p hp hne => mapDelete_mem_of_ne k s.entries p hp hne, ?_⟩
      · constructor
        · intro h
          exact absurd h (by simp)
        · rintro ⟨e', he', hxe'⟩
          injection he' with he2
          subst he2
          rw [hx] at hxe'
          exact absurd hxe' (by simp)
      · intro hall
        have := hall e rfl
        rw [hx] at this
        exact absurd this (by simp)
    · simp only [Bool.not_eq_true] at hx
      simp only [hx, Bool.false_eq_true, if_false]
      refine ⟨?_, ?_, ?_, ?_⟩
      · simp only [true_iff]
        exact ⟨e, rfl, hx⟩
      · exact List.Sublist.refl _
      · exact fun p hp _ => hp
      · intro _
        trivial

/-- Witness for C6 (amended) at a concrete unexpired entry: the cache is
unchanged by `has`. -/
theorem c6_has_no_promotion_witness :
    (cacheHas 5 "a" (⟨[("a", ⟨(1 : Nat), 0⟩)]⟩ : LruCache Nat)).2 =
      (⟨[("a", ⟨(1 : Nat), 0⟩)]⟩ : LruCache Nat) :=
  (c6_has_no_promotion 5 "a" _).2.2.2 (by
    intro e he
    simp only [mapGet, if_pos rfl] at he
    cases he
    decide)

/-- C10: `delete(key)` reports *physical* presence and ignores expiry — on a
state holding an expired, untouched entry for `key`, `delete` returns `true`
while `get` returns not-found and `has` returns `false`. -/
theorem c10_delete_ignores_expiry {V : Type} (now : Int) (k : String)
    (s : LruCache V) (e : LruEntry V) (hg : mapGet k s.entries = some e)
    (hx : isExpired now e = true) :
    (cacheDelete k s).1 = true ∧ (cacheGet now k s).1 = none ∧
      (cacheHas now k s).1 = false := by
  unfold cacheDelete cacheGet cacheHas
  simp [hg, hx]

/-- Witness for C10 at a concrete expired entry. -/
theorem c10_delete_ignores_expiry_witness :
    (cacheDelete "a" (⟨[("a", ⟨(1 : Nat), 6000⟩)]⟩ : LruCache Nat)).1 = true ∧
      (cacheGet 6000 "a" (⟨[("a", ⟨(1 : Nat), 6000⟩)]⟩ : LruCache Nat)).1 = none ∧
      (cacheHas 6000 "a" (⟨[("a", ⟨(1 : Nat), 6000⟩)]⟩ : LruCache Nat)).1 = false :=
  c10_delete_ignores_expiry 6000 "a" _ ⟨1, 6000⟩ (by decide) (by decide)

/-! ## Sliding-window rate limiter (`createSlidingWindowRateLimiter`)

Two source variants: the naive front-truncating timestamp array, and the
ring buffer with a logical `head` index plus compaction.  `maxRequests` and
`windowMs` are clamped to ≥ 1 at construction; the injected clock becomes an
explicit `nowMs` argument per call. -/

structure ConsumeResult where
  allowed : Bool
  retryAfterMs : Int
  remaining : Int
  deriving Repr, DecidableEq

/-- Naive `prune(nowMs)`: `while (timestamps.length > 0 && timestamps[0] < cutoff)
timestamps.shift()`. -/
def pruneNaive (cutoff : Int) : List Int → List Int
  | [] => []
  | t :: ts => if t < cutoff then pruneNaive cutoff ts else t :: ts

def naiveConsume (maxRequests windowMs nowMs : Int) (ts : List Int) :
    ConsumeResult × List Int :=
  let ts1 := pruneNaive (nowMs - windowMs) ts
  if (ts1.length : Int) ≥ maxRequests then
    (⟨false, max 0 (ts1.headD 0 + windowMs - nowMs), 0⟩, ts1)
  else
    let ts2 := ts1 ++ [nowMs]
    (⟨true, 0, max 0 (maxRequests - (ts2.length : Int))⟩, ts2)

def naiveCount (windowMs nowMs : Int) (ts : List Int) : Int × List Int :=
  let ts1 := pruneNaive (nowMs - windowMs) ts
  ((ts1.length : Int), ts1)

/-- Ring-buffer state: `buf` plus the logical head index. -/
structure RingBuf where
  buf : List Int
  head : Nat
  deriving Repr, DecidableEq

/-- The `while (head < buf.length && buf[head] < cutoff) head += 1` loop,
as the number of leading prunable entries of the live suffix. -/
def advanceHead (cutoff : Int) : List Int → Nat
  | [] => 0
  | t :: ts => if t < cutoff then advanceHead cutoff ts + 1 else 0

/-- Advanced head after the `while (head < buf.length && buf[head] < cutoff)`
loop of the ring `prune`. -/
def prunedHead (cutoff : Int) (r : RingBuf) : Nat :=
  r.head + advanceHead cutoff (r.buf.drop r.head)

/-- Ring `prune(nowMs)`: advance `head` past expired entries, then compact
when `head > 0 && head > buf.length / 2` (i.e. `2*head > buf.length`). -/
def pruneRing (cutoff : Int) (r : RingBuf) : RingBuf :=
  if 0 < prunedHead cutoff r ∧ r.buf.length < 2 * prunedHead cutoff r then
    ⟨r.buf.drop (prunedHead cutoff r), 0⟩
  else ⟨r.buf, prunedHead cutoff r⟩

def ringActiveCount (r : RingBuf) : Nat := r.buf.length - r.head

def ringConsume (maxRequests windowMs nowMs : Int) (r : RingBuf) :
    ConsumeResult × RingBuf :=
  let r1 := pruneRing (nowMs - windowMs) r
  if (ringActiveCount r1 : Int) ≥ maxRequests then
    (⟨false, max 0 (r1.buf.getD r1.head 0 + windowMs - nowMs), 0⟩, r1)
  else
    let r2 : RingBuf := ⟨r1.buf ++ [nowMs], r1.head⟩
    (⟨true, 0, max 0 (maxRequests - (ringActiveCount r2 : Int))⟩, r2)

def ringCount (windowMs nowMs : Int) (r : RingBuf) : Int × RingBuf :=
  let r1 := pruneRing (nowMs - windowMs) r
  ((ringActiveCount r1 : Int), r1)

/-- One limiter call, carrying the clock value at which it runs. -/
inductive RLEvent where
  | consume (nowMs : Int)
  | reset
  | countReq (nowMs : Int)
  deriving Repr

/-- The observable outcome of one limiter call. -/
inductive RLObs where
  | consumed (r : ConsumeResult)
  | resetDone
  | counted (n : Int)
  deriving Repr, DecidableEq

def naiveStep (maxRequests windowMs : Int) (ts : List Int) :
    RLEvent → RLObs × List Int
  | .consume nowMs =>
    let (res, ts1) := naiveConsume maxRequests windowMs nowMs ts
    (.consumed res, ts1)
  | .reset => (.resetDone, [])
  | .countReq nowMs =>
    let (n, ts1) := naiveCount windowMs nowMs ts
    (.counted n, ts1)

def ringStep (maxRequests windowMs : Int) (r : RingBuf) :
    RLEvent → RLObs × RingBuf
  | .consume nowMs =>
    let (res, r1) := ringConsume maxRequests windowMs nowMs r
    (.consumed res, r1)
  | .reset => (.resetDone, ⟨[], 0⟩)
  | .countReq nowMs =>
    let (n, r1) := ringCount windowMs nowMs r
    (.counted n, r1)

def naiveRun (maxRequests windowMs : Int) (ts : List Int) :
    List RLEvent → List RLObs
  | [] => []
  | e :: es =>
    let (o, ts1) := naiveStep maxRequests windowMs ts e
    o :: naiveRun maxRequests windowMs ts1 es

def ringRun (maxRequests windowMs : Int) (r : RingBuf) :
    List RLEvent → List RLObs
  | [] => []
  | e :: es =>
    let (o, r1) := ringStep maxRequests windowMs r e
    o :: ringRun maxRequests windowMs r1 es

theorem advanceHead_le (cutoff : Int) (l : List Int) :
    advanceHead cutoff l ≤ l.length := by
  induction l with
  | nil => simp [advanceHead]
  | cons t ts ih =>
    unfold advanceHead
    split
    · simp only [List.length_cons]
      omega
    · simp

theorem drop_advanceHead (cutoff : Int) (l : List Int) :
    l.drop (advanceHead cutoff l) = pruneNaive cutoff l := by
  induction l with
  | nil => rfl
  | cons t ts ih =>
    unfold advanceHead pruneNaive
    split
    · simpa using ih
    · rfl

theorem getD_eq_headD_drop (l : List Int) (n : Nat) :
    l.getD n 0 = (l.drop n).headD 0 := by
  induction l generalizing n with
  | nil => simp [List.getD]
  | cons t ts ih =>
    cases n with
    | zero => simp [List.getD]
    | succ m =>
      simp only [List.getD, List.get?_cons_succ, List.drop_succ_cons]
      exact ih m

theorem pruneRing_abs (cutoff : Int) (r : RingBuf) (hh : r.head ≤ r.buf.length) :
    (pruneRing cutoff r).head ≤ (pruneRing cutoff r).buf.length ∧
      (pruneRing cutoff r).buf.drop (pruneRing cutoff r).head =
        pruneNaive cutoff (r.buf.drop r.head) := by
  unfold pruneRing
  have hlen : (r.buf.drop r.head).length = r.buf.length - r.head :=
    List.length_drop r.head r.buf
  have hadv : advanceHead cutoff (r.buf.drop r.head) ≤ r.buf.length - r.head := by
    rw [← hlen]; exact advanceHead_le cutoff _
  have hdrop : r.buf.drop (prunedHead cutoff r) =
      pruneNaive cutoff (r.buf.drop r.head) := by
    unfold prunedHead
    rw [← drop_advanceHead cutoff (r.buf.drop r.head)]
    exact (List.drop_drop _ _ _).symm
  have hph : prunedHead cutoff r ≤ r.buf.length := by
    unfold prunedHead
    omega
  split
  · constructor
    · simp
    · simpa using hdrop
  · constructor
    · simpa using hph
    · simpa using hdrop

theorem ringConsume_equiv (maxRequests windowMs nowMs : Int) (ts : List Int)
    (r : RingBuf) (hh : r.head ≤ r.buf.length) (habs : r.buf.drop r.head = ts) :
    (ringConsume maxRequests windowMs nowMs r).1 =
        (naiveConsume maxRequests windowMs nowMs ts).1 ∧
      (ringConsume maxRequests windowMs nowMs r).2.head ≤
        (ringConsume maxRequests windowMs nowMs r).2.buf.length ∧
      (ringConsume maxRequests windowMs nowMs r).2.buf.drop
          (ringConsume maxRequests windowMs nowMs r).2.head =
        (naiveConsume maxRequests windowMs nowMs ts).2 := by
  obtain ⟨h1, h2⟩ := pruneRing_abs (nowMs - windowMs) r hh
  rw [habs] at h2
  have hcnt : (ringActiveCount (pruneRing (nowMs - windowMs) r) : Int) =
      ((pruneNaive (nowMs - windowMs) ts).length : Int) := by
    unfold ringActiveCount
    rw [← List.length_drop, h2]
  have hold : (pruneRing (nowMs - windowMs) r).buf.getD
      (pruneRing (nowMs - windowMs) r).head 0 =
      (pruneNaive (nowMs - windowMs) ts).headD 0 := by
    rw [getD_eq_headD_drop, h2]
  have hlen1 : (pruneNaive (nowMs - windowMs) ts).length =
      (pruneRing (nowMs - windowMs) r).buf.length -
        (pruneRing (nowMs - windowMs) r).head := by
    rw [← h2, List.length_drop]
  have hcnt2 : (ringActiveCount ⟨(pruneRing (nowMs - windowMs) r).buf ++ [nowMs],
      (pruneRing (nowMs - windowMs) r).head⟩ : Int) =
      (((pruneNaive (nowMs - windowMs) ts) ++ [nowMs]).length : Int) := by
    unfold ringActiveCount
    simp only [List.length_append, List.length_cons, List.length_nil]
    omega
  simp only [ringConsume, naiveConsume]
  rw [hcnt]
  split
  · refine ⟨?_, h1, h2⟩
    simp only
    rw [hold]
  · refine ⟨?_, ?_, ?_⟩
    · simp only
      rw [hcnt2]
    · simp only [List.length_append]
      omega
    · simp only
      rw [List.drop_append_of_le_length h1, h2]

theorem ringStep_equiv (maxRequests windowMs : Int) (ts : List Int) (r : RingBuf)
    (hh : r.head ≤ r.buf.length) (habs : r.buf.drop r.head = ts) (e : RLEvent) :
    (ringStep maxRequests windowMs r e).1 = (naiveStep maxRequests windowMs ts e).1 ∧
      (ringStep maxRequests windowMs r e).2.head ≤
        (ringStep maxRequests windowMs r e).2.buf.length ∧
      (ringStep maxRequests windowMs r e).2.buf.drop
          (ringStep maxRequests windowMs r e).2.head =
        (naiveStep maxRequests windowMs ts e).2 := by
  cases e with
  | reset => exact ⟨rfl, by simp [ringStep, naiveStep], by simp [ringStep, naiveStep]⟩
  | countReq nowMs =>
    obtain ⟨h1, h2⟩ := pruneRing_abs (nowMs - windowMs) r hh
    rw [habs] at h2
    have hcnt : (ringActiveCount (pruneRing (nowMs - windowMs) r) : Int) =
        ((pruneNaive (nowMs - windowMs) ts).length : Int) := by
      unfold ringActiveCount
      rw [← List.length_drop, h2]
    refine ⟨?_, ?_, ?_⟩
    · simp only [ringStep, naiveStep, ringCount, naiveCount]
      rw [hcnt]
    · simp only [ringStep, ringCount]
      exact h1
    · simpa only [ringStep, naiveStep, ringCount, naiveCount] using h2
  | consume nowMs =>
    obtain ⟨ho, hr⟩ := ringConsume_equiv maxRequests windowMs nowMs ts r hh habs
    refine ⟨?_, ?_, ?_⟩
    · simpa only [ringStep, naiveStep] using congrArg RLObs.consumed ho
    · simpa only [ringStep] using hr.1
    · simpa only [ringStep, naiveStep] using hr.2

theorem ringRun_equiv (maxRequests windowMs : Int) (events : List RLEvent) :
    ∀ (ts : List Int) (r : RingBuf), r.head ≤ r.buf.length →
      r.buf.drop r.head = ts →
      ringRun maxRequests windowMs r events = naiveRun maxRequests windowMs ts events := by
  induction events with
  | nil => intro ts r _ _; rfl
  | cons e es ih =>
    intro ts r hh habs
    obtain ⟨ho, hh1, habs1⟩ := ringStep_equiv maxRequests windowMs ts r hh habs e
    simp only [ringRun, naiveRun, ho]
    rw [ih _ _ hh1 habs1]

/-- C7: the naive front-truncating rate limiter and the compacting ring-buffer
rate limiter are observationally equivalent: for every configuration and every
sequence of `consume()`/`reset()`/`count()` calls under the same clock, the two
produce identical `{allowed, retryAfterMs, remaining}` results and counts. -/
theorem c7_ring_naive_equivalence (maxRequestsRaw windowMsRaw : Int)
    (events : List RLEvent) :
    ringRun (max 1 maxRequestsRaw) (max 1 windowMsRaw) ⟨[], 0⟩ events =
      naiveRun (max 1 maxRequestsRaw) (max 1 windowMsRaw) [] events :=
  ringRun_equiv (max 1 maxRequestsRaw) (max 1 windowMsRaw) events [] ⟨[], 0⟩
    (by simp) (by simp)

/-- C2 fails as stated: pruning uses a strict `<` comparison against
`cutoff = now - windowMs`, so a timestamp *equal* to `now - windowMs` is
retained, contradicting the claimed strict `t > now - windowMs`.  Concretely,
with `windowMs = 1000`, a timestamp `0` survives the pruning done by
`count()` at `now = 1000` even though `0 = now - windowMs`. -/
theorem c2_counterexample :
    (naiveCount 1000 1000 [0]).2 = [0] ∧
      ¬ (∀ t ∈ (naiveCount 1000 1000 [0]).2, 1000 - 1000 < t) := by
  refine ⟨rfl, ?_⟩
  intro h
  have := h 0 (by simp [naiveCount, pruneNaive])
  omega

/-- C2 (amended): after the pruning performed at the start of `consume()` or
`count()`, if the timestamp log is non-decreasing then every retained
timestamp `t` satisfies `t ≥ now - windowMs`; moreover no timestamp
`≥ now - windowMs` is ever pruned, so a timestamp exactly equal to
`now - windowMs` is retained. -/
theorem c2_prune_boundary (windowMs nowMs : Int) (ts : List Int)
    (hs : List.Sorted (· ≤ ·) ts) :
    (∀ t ∈ pruneNaive (nowMs - windowMs) ts, nowMs - windowMs ≤ t) ∧
      (∀ t ∈ ts, nowMs - windowMs ≤ t → t ∈ pruneNaive (nowMs - windowMs) ts) := by
  constructor
  · induction ts with
    | nil => simp [pruneNaive]
    | cons t rest ih =>
      rw [List.sorted_cons] at hs
      unfold pruneNaive
      split
      · exact ih hs.2
      · rename_i hnlt
        intro u hu
        rcases List.mem_cons.mp hu with h | h
        · omega
        · have := hs.1 u h
          omega
  · induction ts with
    | nil => simp [pruneNaive]
    | cons t rest ih =>
      rw [List.sorted_cons] at hs
      unfold pruneNaive
      split
      · rename_i hlt
        intro u hu hge
        rcases List.mem_cons.mp hu with h | h
        · omega
        · exact ih hs.2 u h hge
      · intro u hu _
        exact hu

/-- Witness for C2 (amended) at `windowMs = 1000`, `now = 1300`, and the
sorted log `[0, 300, 1300]` (cutoff `300`: the boundary entry is kept). -/
theorem c2_prune_boundary_witness :
    (∀ t ∈ pruneNaive (1300 - 1000) [0, 300, 1300], 1300 - 1000 ≤ t) ∧
      (∀ t ∈ ([0, 300, 1300] : List Int), 1300 - 1000 ≤ t →
        t ∈ pruneNaive (1300 - 1000) [0, 300, 1300]) :=
  c2_prune_boundary 1000 1300 [0, 300, 1300] (by simp [List.sorted_cons])

/-! ## Circuit breaker (`createCircuitBreaker`)

State machine `{closed, open, half-open}` with `consecutiveFailures` and
`openedAt`.  `call(fn)` reads the clock on entry (gate checks) and again
after `fn` settles (transition into `open`); the two reads are the explicit
arguments `tEntry` and `tExit`.  `fn`'s outcome is the `Except` value; a
gated call is `rejectedOpen retryAfterMs` and never looks at the outcome. -/

inductive CBState where
  | closed
  | opened
  | halfOpen
  deriving Repr, DecidableEq

structure CB where
  state : CBState
  consecutiveFailures : Nat
  openedAt : Int
  deriving Repr, DecidableEq

structure CBConfig where
  failureThreshold : Int
  resetTimeoutMs : Int
  deriving Repr, DecidableEq

/-- `Math.max(1, Math.floor(options.failureThreshold))`. -/
def cbFailureThreshold (cfg : CBConfig) : Nat := (max 1 cfg.failureThreshold).toNat

/-- `Math.max(0, Math.floor(options.resetTimeoutMs))`. -/
def cbResetTimeoutMs (cfg : CBConfig) : Int := max 0 cfg.resetTimeoutMs

def cbInit : CB := ⟨.closed, 0, 0⟩

/-- `state === "open" && now() - openedAt >= resetTimeoutMs`. -/
def shouldTransitionToHalfOpen (cfg : CBConfig) (t : Int) (s : CB) : Bool :=
  s.state == .opened && t - s.openedAt ≥ cbResetTimeoutMs cfg

/-- The lazy `open → half-open` resolution at the top of `call`. -/
def resolveHalfOpen (cfg : CBConfig) (t : Int) (s : CB) : CB :=
  if shouldTransitionToHalfOpen cfg t s then { s with state := .halfOpen } else s

/-- `state()`: pure read applying the same lazy transition rule. -/
def cbStateRead (cfg : CBConfig) (t : Int) (s : CB) : CBState :=
  if shouldTransitionToHalfOpen cfg t s then .halfOpen else s.state

/-- The observable outcome of one `call(fn)`. -/
inductive CallResult (ε α : Type) where
  | rejectedOpen (retryAfterMs : Int)
  | completed (r : Except ε α)
  deriving Repr

def cbCall {ε α : Type} (cfg : CBConfig) (tEntry tExit : Int)
    (outcome : Except ε α) (s : CB) : CallResult ε α × CB :=
  if (resolveHalfOpen cfg tEntry s).state = .opened then
    (.rejectedOpen (max 0 (cbResetTimeoutMs cfg -
        (tEntry - (resolveHalfOpen cfg tEntry s).openedAt))),
      resolveHalfOpen cfg tEntry s)
  else
    match outcome with
    | .ok v =>
      if (resolveHalfOpen cfg tEntry s).state = .halfOpen then
        (.completed (.ok v), ⟨.closed, 0, 0⟩)
      else
        (.completed (.ok v), { resolveHalfOpen cfg tEntry s with consecutiveFailures := 0 })
    | .error e =>
      if (resolveHalfOpen cfg tEntry s).state = .halfOpen then
        (.completed (.error e),
          { resolveHalfOpen cfg tEntry s with state := .opened, openedAt := tExit })
      else
        if (resolveHalfOpen cfg tEntry s).consecutiveFailures + 1 ≥ cbFailureThreshold cfg then
          (.completed (.error e),
            ⟨.opened, (resolveHalfOpen cfg tEntry s).consecutiveFailures + 1, tExit⟩)
        else
          (.completed (.error e),
            { resolveHalfOpen cfg tEntry s with
                consecutiveFailures := (resolveHalfOpen cfg tEntry s).consecutiveFailures + 1 })

def cbFailures (s : CB) : Nat := s.consecutiveFailures

def cbResetOp : CB := ⟨.closed, 0, 0⟩

/-- C4: while the breaker is open and the elapsed time since `openedAt` is
still below `resetTimeoutMs`, `call(fn)` fails with the typed circuit-open
error carrying `retryAfterMs = max(0, resetTimeoutMs - elapsed)`, `fn` is
never invoked (the result is independent of `fn`'s outcome and is a
rejection, not a completion), and the stored breaker state is unchanged. -/
theorem c4_circuit_open_rejects {ε α : Type} (cfg : CBConfig) (tEntry tExit : Int)
    (s : CB) (outcome : Except ε α) (hopen : s.state = CBState.opened)
    (hsoon : tEntry - s.openedAt < cbResetTimeoutMs cfg) :
    cbCall cfg tEntry tExit outcome s =
      (.rejectedOpen (max 0 (cbResetTimeoutMs cfg - (tEntry - s.openedAt))), s) := by
  have hno : shouldTransitionToHalfOpen cfg tEntry s = false := by
    unfold shouldTransitionToHalfOpen
    simp only [hopen, beq_self_eq_true, Bool.true_and, ge_iff_le, decide_eq_false_iff_not,
      not_le]
    exact hsoon
  simp only [cbCall, resolveHalfOpen, hno, Bool.false_eq_true, if_false, hopen, if_pos]

/-- Witness for C4 at the test's concrete scenario: `resetTimeoutMs = 5000`,
opened at `t = 1000`, call at `t = 2000` → rejected with `retryAfterMs` =
`max 0 (5000 - 1000)`, state untouched. -/
theorem c4_circuit_open_rejects_witness :
    cbCall ⟨1, 5000⟩ 2000 2000 (Except.ok 7 : Except String Nat)
        ⟨CBState.opened, 1, 1000⟩ =
      (.rejectedOpen (max 0 (cbResetTimeoutMs ⟨1, 5000⟩ - (2000 - 1000))),
        ⟨CBState.opened, 1, 1000⟩) :=
  c4_circuit_open_rejects ⟨1, 5000⟩ 2000 2000 ⟨CBState.opened, 1, 1000⟩
    (Except.ok 7) rfl (by decide)

/-- C3: the breaker starts closed; a failure in closed opens it exactly when
the consecutive-failure count reaches `failureThreshold` (recording
`openedAt` = the failure's completion time); while open, once
`now - openedAt ≥ resetTimeoutMs` the read `state()` reports half-open; and
from a half-open observation, a success of `fn` yields closed with
`failures() = 0` while a failure of `fn` yields open with `openedAt`
re-armed to the failure's completion time. -/
theorem c3_state_machine {ε α : Type} (cfg : CBConfig) (t t' : Int) (s : CB)
    (e : ε) (v : α) :
    (cbInit.state = CBState.closed ∧ cbFailures cbInit = 0) ∧
      (s.state = CBState.closed →
        (((cbCall cfg t t' (Except.error e : Except ε α) s).2.state = CBState.opened) ↔
          cbFailureThreshold cfg ≤ s.consecutiveFailures + 1) ∧
        (cbFailureThreshold cfg ≤ s.consecutiveFailures + 1 →
          (cbCall cfg t t' (Except.error e : Except ε α) s).2.openedAt = t')) ∧
      (s.state = CBState.opened →
        (cbResetTimeoutMs cfg ≤ t - s.openedAt ↔
          cbStateRead cfg t s = CBState.halfOpen)) ∧
      (cbStateRead cfg t s = CBState.halfOpen →
        ((cbCall cfg t t' (Except.ok v : Except ε α) s).2.state = CBState.closed ∧
          cbFailures (cbCall cfg t t' (Except.ok v : Except ε α) s).2 = 0) ∧
        ((cbCall cfg t t' (Except.error e : Except ε α) s).2.state = CBState.opened ∧
          (cbCall cfg t t' (Except.error e : Except ε α) s).2.openedAt = t')) := by
  refine ⟨⟨rfl, rfl⟩, ?_, ?_, ?_⟩
  · intro hc
    have hno : shouldTransitionToHalfOpen cfg t s = false := by
      unfold shouldTransitionToHalfOpen
      simp [hc]
    by_cases hth : cbFailureThreshold cfg ≤ s.consecutiveFailures + 1
    · constructor
      · simp [cbCall, resolveHalfOpen, hno, hc, hth]
      · intro _
        simp [cbCall, resolveHalfOpen, hno, hc, hth]
    · constructor
      · simp [cbCall, resolveHalfOpen, hno, hc, hth]
      · intro h
        exact absurd h hth
  · intro ho
    unfold cbStateRead shouldTransitionToHalfOpen
    simp only [ho, beq_self_eq_true, Bool.true_and, ge_iff_le]
    by_cases hel : cbResetTimeoutMs cfg ≤ t - s.openedAt
    · simp [hel]
    · simp [hel]
  · intro hh
    have hrs : (resolveHalfOpen cfg t s).state = CBState.halfOpen := by
      unfold cbStateRead at hh
      unfold resolveHalfOpen
      by_cases hb : shouldTransitionToHalfOpen cfg t s = true
      · simp [hb]
      · simp only [hb, Bool.false_eq_true, if_false] at hh ⊢
        exact hh
    refine ⟨⟨?_, ?_⟩, ?_, ?_⟩ <;>
      simp [cbCall, hrs, cbFailures]

/-- Witness for C3 at the threshold-reaching concrete case: threshold `2`,
one prior failure, a failing call at `t = 1000` opens the breaker with
`openedAt = 1000`. -/
theorem c3_state_machine_witness :
    ((cbCall ⟨2, 5000⟩ 1000 1000 (Except.error "boom" : Except String Nat)
        ⟨CBState.closed, 1, 0⟩).2.state = CBState.opened ↔
      cbFailureThreshold ⟨2, 5000⟩ ≤ 1 + 1) ∧
      (cbFailureThreshold ⟨2, 5000⟩ ≤ 1 + 1 →
        (cbCall ⟨2, 5000⟩ 1000 1000 (Except.error "boom" : Except String Nat)
          ⟨CBState.closed, 1, 0⟩).2.openedAt = 1000) :=
  (c3_state_machine ⟨2, 5000⟩ 1000 1000 ⟨CBState.closed, 1, 0⟩ "boom" (0 : Nat)).2.1 rfl

/-! ## Throttle (`throttle`)

State: `lastCallTime`, the pending (most recently suppressed) arguments, and
the scheduled trailing wake, modelled by its absolute fire time.
`Date.now()` becomes the explicit argument `t`; the first component of each
result is the invocation of the wrapped `fn` it performs (its arguments), or
`none` when `fn` is not called. -/

structure ThrottleState (α : Type) where
  lastCallTime : Int
  pendingArgs : Option α
  timer : Option Int
  deriving Repr, DecidableEq

def throttleInit {α : Type} : ThrottleState α := ⟨0, none, none⟩

/-- `Math.max(0, Math.floor(intervalMs))`. -/
def throttleInterval (intervalMs : Int) : Int := max 0 intervalMs

/-- The throttled function: leading call invokes synchronously (after
`clearPending()`); a call within the interval overwrites `pendingArgs` and
schedules a trailing wake at `now + (interval - elapsed)` unless one is
already scheduled. -/
def throttledCall {α : Type} (interval : Int) (t : Int) (args : α)
    (s : ThrottleState α) : Option α × ThrottleState α :=
  if t - s.lastCallTime ≥ interval then
    (some args, ⟨t, none, none⟩)
  else
    match s.timer with
    | some w => (none, { s with pendingArgs := some args, timer := some w })
    | none =>
      (none, { s with
                pendingArgs := some args,
                timer := some (t + (interval - (t - s.lastCallTime))) })

/-- The `setTimeout` callback at its fire time `t`: clear the timer and, if a
payload is pending, invoke with it (recording `lastCallTime = t`). -/
def timerFire {α : Type} (t : Int) (s : ThrottleState α) :
    Option α × ThrottleState α :=
  match s.pendingArgs with
  | some a => (some a, ⟨t, none, none⟩)
  | none => (none, { s with timer := none })

/-- C9: with `intervalMs = 100`, a first call at time `T` in a quiescent
period (`T - lastCallTime ≥ 100`) invokes `fn` synchronously with its
arguments; two further calls at `t2, t3` within the interval are coalesced —
each only overwrites the pending payload, the second leaves the already
scheduled wake untouched — and the wake, scheduled for `T + 100`, fires
exactly once with the *last* call's arguments.  Instantiating
`t2 = t3 = T` gives the spec's three-calls-at-t=0 scenario. -/
theorem c9_throttle_coalescing {α : Type} (T t2 t3 : Int) (x1 x2 x3 : α)
    (hq : 100 ≤ T - (throttleInit : ThrottleState α).lastCallTime)
    (h2a : T ≤ t2) (h2 : t2 - T < 100) (h3 : t3 - T < 100) :
    throttledCall 100 T x1 throttleInit = (some x1, ⟨T, none, none⟩) ∧
      throttledCall 100 t2 x2 ⟨T, none, none⟩ =
        (none, ⟨T, some x2, some (T + 100)⟩) ∧
      throttledCall 100 t3 x3 ⟨T, some x2, some (T + 100)⟩ =
        (none, ⟨T, some x3, some (T + 100)⟩) ∧
      timerFire (T + 100) ⟨T, some x3, some (T + 100)⟩ =
        (some x3, ⟨T + 100, none, none⟩) := by
  simp only [throttleInit] at hq
  refine ⟨?_, ?_, ?_, ?_⟩
  · unfold throttledCall throttleInit
    rw [if_pos (by simp only; omega)]
  · unfold throttledCall
    rw [if_neg (by simp only; omega)]
    simp only [Prod.mk.injEq, ThrottleState.mk.injEq, Option.some.injEq, true_and]
    omega
  · unfold throttledCall
    rw [if_neg (by simp only; omega)]
  · rfl

/-- Witness for C9 at `T = 100` (three calls at the same instant). -/
theorem c9_throttle_coalescing_witness :
    throttledCall 100 100 (1 : Nat) throttleInit = (some 1, ⟨100, none, none⟩) ∧
      throttledCall 100 100 (2 : Nat) ⟨100, none, none⟩ =
        (none, ⟨100, some 2, some (100 + 100)⟩) ∧
      throttledCall 100 100 (3 : Nat) ⟨100, some 2, some (100 + 100)⟩ =
        (none, ⟨100, some 3, some (100 + 100)⟩) ∧
      timerFire (100 + 100) ⟨100, some 3, some (100 + 100)⟩ =
        (some 3, ⟨100 + 100, none, none⟩) :=
  c9_throttle_coalescing 100 100 100 1 2 3 (by decide) (by decide) (by decide) (by decide)
